import Mathlib

/-!
Verification of the decision-tree regression component of the
`spare-time-projects` repository.

The model-selection driver `make_best_tree` is embedded from
`python/#artificial_intelligence_machine_learning/decisiontreeregression/main.py`.
The `DecisionTree` class itself lives in `decision_tree.py`, which is not part
of the source snapshot; its construction, prediction, evaluation and depth
operations are modelled from the specification (sections 3, 4.1-4.4), as noted
on each definition.

All numeric data is embedded as rationals (`ℚ`): the Python code computes with
floats, and the algorithmic claims are about exact arithmetic comparisons of
means and variances.  The single floating-point-specific behaviour that a claim
mentions (a NaN mean MSE making the `<` comparison fail) is modelled separately
with an explicit NaN-aware value type `MseVal`.
-/

namespace DTR

/-- A training sample: a feature vector paired with a target value. -/
abbrev Sample := List ℚ × ℚ

/-- Modelled from the spec: a tree node is either a Leaf holding a scalar
prediction value, or an internal (split) node holding a feature index, a
threshold, and exactly two children (section 3, Data Model). -/
inductive Node where
  | leaf (value : ℚ)
  | split (feature : ℕ) (threshold : ℚ) (left right : Node)

deriving instance DecidableEq for Node

/-- Arithmetic mean of a list of rationals (`np.mean`); mean of the empty list
is 0 by the rational convention x / 0 = 0. -/
def mean (l : List ℚ) : ℚ := l.sum / l.length

/-- Population variance of a list of rationals (`np.var`): the mean of the
squared deviations from the mean. -/
def variance (l : List ℚ) : ℚ := mean (l.map (fun v => (v - mean l) ^ 2))

/-- The target values of a list of samples. -/
def targets (s : List Sample) : List ℚ := s.map Prod.snd

/-- Modelled from the spec: the left partition induced by threshold `v` on
feature `f`: rows whose value at feature `f` is ≤ `v` (section 4.1 step 2).
A missing coordinate reads as 0 (never happens on well-shaped input). -/
def leftPart (s : List Sample) (f : ℕ) (v : ℚ) : List Sample :=
  s.filter (fun p => p.1.getD f 0 ≤ v)

/-- Modelled from the spec: the right partition induced by threshold `v` on
feature `f`: rows whose value at feature `f` is > `v` (section 4.1 step 2). -/
def rightPart (s : List Sample) (f : ℕ) (v : ℚ) : List Sample :=
  s.filter (fun p => v < p.1.getD f 0)

/-- Whether all values in a list are identical (the purity base case test). -/
def allSame : List ℚ → Bool
  | [] => true
  | a :: t => t.all (fun b => b = a)

/-- Number of features, read off the first sample's vector length. -/
def numFeatures : List Sample → ℕ
  | [] => 0
  | p :: _ => p.1.length

/-- The column of feature `f` over the current subset. -/
def featureColumn (s : List Sample) (f : ℕ) : List ℚ :=
  s.map (fun p => p.1.getD f 0)

/-- Insert a value into a sorted list, keeping it sorted (ascending). -/
def insertSorted (v : ℚ) : List ℚ → List ℚ
  | [] => [v]
  | w :: ws => if v ≤ w then v :: w :: ws else w :: insertSorted v ws

/-- Insertion sort, ascending. -/
def sortVals (l : List ℚ) : List ℚ := l.foldr insertSorted []

/-- The distinct values of a list (each value kept once). -/
def distinctVals : List ℚ → List ℚ
  | [] => []
  | a :: t => if a ∈ distinctVals t then distinctVals t else a :: distinctVals t

/-- Modelled from the spec: the candidate thresholds for feature `f` are the
distinct values present in that feature's column within the current subset,
enumerated in ascending value order (section 4.1 steps 2-3, value order of the
feature-index-then-value tie-break). -/
def candidateThresholds (s : List Sample) (f : ℕ) : List ℚ :=
  sortVals (distinctVals (featureColumn s f))

/-- Modelled from the spec: all candidate (feature, threshold) pairs, in
feature-index-then-value order (section 4.1 steps 2-3). -/
def candidates (s : List Sample) : List (ℕ × ℚ) :=
  (List.range (numFeatures s)).flatMap
    (fun f => (candidateThresholds s f).map (fun v => (f, v)))

/-- Modelled from the spec: the weighted variance score of the split of `s`
induced by feature `f` and threshold `v`: the sum of each partition's variance
multiplied by its relative size (section 4.1 step 2 and Glossary).  An empty
partition contributes 0. -/
def splitCost (s : List Sample) (f : ℕ) (v : ℚ) : ℚ :=
  (leftPart s f v).length * variance (targets (leftPart s f v)) / s.length
    + (rightPart s f v).length * variance (targets (rightPart s f v)) / s.length

/-- One step of the candidate scan: a candidate is accepted from the initial
state only if its cost is strictly below the parent's variance, and it
replaces a previously accepted candidate only if its cost is strictly
smaller (so the first candidate in scan order wins every tie). -/
def betterSplit (s : List Sample) (acc : Option (ℕ × ℚ)) (c : ℕ × ℚ) :
    Option (ℕ × ℚ) :=
  match acc with
  | none => if splitCost s c.1 c.2 < variance (targets s) then some c else none
  | some b => if splitCost s c.1 c.2 < splitCost s b.1 b.2 then some c else some b

/-- Modelled from the spec: select the (feature, threshold) pair with the
globally minimum weighted variance across all candidates, ties broken by the
first candidate encountered in feature-index-then-value order; `none` when no
candidate split reduces variance below the parent's variance
(section 4.1 steps 3-4). -/
def bestSplit (s : List Sample) : Option (ℕ × ℚ) :=
  (candidates s).foldl (betterSplit s) none

/-- Modelled from the spec: recursive tree construction (section 4.1).  If the
depth budget is 0, the subset has at most one sample, or all targets are
identical, produce a Leaf with the subset's target mean; otherwise, if a best
split exists, produce an internal node and recurse on the two partitions with
the budget decreased by one, and fall back to a Leaf when no candidate split
reduces variance below the parent's variance. -/
def build : ℕ → List Sample → Node
  | 0, s => .leaf (mean (targets s))
  | d + 1, s =>
    if s.length ≤ 1 ∨ allSame (targets s) then .leaf (mean (targets s))
    else
      match bestSplit s with
      | none => .leaf (mean (targets s))
      | some (f, v) =>
        .split f v (build d (leftPart s f v)) (build d (rightPart s f v))

/-- Modelled from the spec: the `DecisionTree(x, y, max_depth)` constructor —
builds the root node from the training feature matrix and target vector
under the given depth bound (sections 3 and 4.1). -/
def DecisionTree (X : List (List ℚ)) (y : List ℚ) (max_depth : ℕ) : Node :=
  build max_depth (X.zip y)

/-- Modelled from the spec: point prediction — descend left if the vector's
value at the node's feature index is ≤ the threshold, right if >, until a
leaf is reached, and return its value (section 4.2). -/
def Node.predict : Node → List ℚ → ℚ
  | .leaf v, _ => v
  | .split f t l r, x => if x.getD f 0 ≤ t then l.predict x else r.predict x

/-- Modelled from the spec: dataset-level evaluation — the mean squared error
between the prediction of each row and the corresponding target
(section 4.3). -/
def Node.evaluate (t : Node) (X : List (List ℚ)) (y : List ℚ) : ℚ :=
  mean ((X.zip y).map (fun p => (t.predict p.1 - p.2) ^ 2))

/-- Modelled from the spec: the maximum number of internal-node edges on any
root-to-leaf path; a single-leaf tree has depth 0 (section 4.4). -/
def Node.get_depth : Node → ℕ
  | .leaf _ => 0
  | .split _ _ l r => 1 + max l.get_depth r.get_depth

/-- Sum of squared errors of a tree over a list of samples; `evaluate` is this
sum divided by the sample count. -/
def sse (t : Node) (s : List Sample) : ℚ :=
  (s.map (fun p => (t.predict p.1 - p.2) ^ 2)).sum

/-- The training samples that follow the same root-to-leaf path through a tree
as the input vector does: at each split the samples are partitioned exactly as
construction partitioned them, and the branch the input takes is kept. -/
def routedSubset : Node → List Sample → List ℚ → List Sample
  | .leaf _, s, _ => s
  | .split f v l r, s, x =>
    if x.getD f 0 ≤ v then routedSubset l (leftPart s f v) x
    else routedSubset r (rightPart s f v) x

/-- The mean of the training-set MSE and the test-set MSE of the tree built
with the given depth bound, exactly the quantity `make_best_tree` computes at
each depth. -/
def meanMSE (x_train : List (List ℚ)) (y_train : List ℚ)
    (x_test : List (List ℚ)) (y_test : List ℚ) (max_depth : ℕ) : ℚ :=
  let tree := DecisionTree x_train y_train max_depth
  (tree.evaluate x_train y_train + tree.evaluate x_test y_test) / 2

/-- Comparison of a freshly computed mean MSE against the running best, which
starts at `np.inf` (represented by `none`): everything is below infinity. -/
def qLtBest (a : ℚ) : Option ℚ → Bool
  | none => true
  | some b => decide (a < b)

/-- The loop of `make_best_tree` (main.py, lines 48-69): for each remaining
depth, build a tree, compute the mean of training and test MSE, keep the tree
if the mean improves on the best so far, and break out of the loop (returning
the best tree kept so far) at the first depth that fails to improve. -/
def make_best_tree_aux (x_train : List (List ℚ)) (y_train : List ℚ)
    (x_test : List (List ℚ)) (y_test : List ℚ) :
    List ℕ → Option Node → Option ℚ → Option Node
  | [], best_tree, _ => best_tree
  | d :: ds, best_tree, best_mean_mse =>
    let tree := DecisionTree x_train y_train d
    let train_mse := tree.evaluate x_train y_train
    let test_mse := tree.evaluate x_test y_test
    let mean_mse := (train_mse + test_mse) / 2
    if qLtBest mean_mse best_mean_mse then
      make_best_tree_aux x_train y_train x_test y_test ds (some tree) (some mean_mse)
    else
      best_tree

/-- `make_best_tree` (main.py, lines 48-69): scan `max_depth` over
`range(6)` with `best_tree = None` and `best_mean_mse = np.inf`. -/
def make_best_tree (x_train : List (List ℚ)) (y_train : List ℚ)
    (x_test : List (List ℚ)) (y_test : List ℚ) : Option Node :=
  make_best_tree_aux x_train y_train x_test y_test (List.range 6) none none

/-- A float mean-MSE value as the `make_best_tree` comparison sees it: either
an ordinary (non-NaN) value or NaN. -/
inductive MseVal where
  | nan
  | fin (q : ℚ)

/-- IEEE-style comparison of a mean MSE against the running best
(`none` = `np.inf`): any comparison involving NaN is false, and every
ordinary value is below infinity. -/
def MseVal.ltBest : MseVal → Option ℚ → Bool
  | .nan, _ => false
  | .fin _, none => true
  | .fin a, some b => decide (a < b)

/-- The ordinary value carried by a non-NaN mean MSE. -/
def MseVal.toFin : MseVal → Option ℚ
  | .nan => none
  | .fin q => some q

/-- The `make_best_tree` loop abstracted over the sequence of per-depth mean
MSE values, returning the chosen depth instead of the tree; used to state the
floating-point (NaN) behaviour of the loop. -/
def bestDepthAux (ms : ℕ → MseVal) : List ℕ → Option ℕ → Option ℚ → Option ℕ
  | [], best, _ => best
  | d :: ds, best, best_mean =>
    if (ms d).ltBest best_mean then bestDepthAux ms ds (some d) (ms d).toFin
    else best

/-- The depth chosen by the `make_best_tree` loop when depth `d`'s mean MSE is
`ms d`; `none` models returning `None`. -/
def bestDepthF (ms : ℕ → MseVal) : Option ℕ :=
  bestDepthAux ms (List.range 6) none none

/-! ### Lemmas about the split partitions -/

theorem rightPart_eq_filter_not (s : List Sample) (f : ℕ) (v : ℚ) :
    rightPart s f v = s.filter (fun p => !(decide (p.1.getD f 0 ≤ v))) := by
  unfold rightPart
  apply List.filter_congr
  intro p _
  rcases le_or_lt (p.1.getD f 0) v with h | h
  · rw [decide_eq_false (not_lt.mpr h), decide_eq_true h]
    rfl
  · rw [decide_eq_true h, decide_eq_false (not_le.mpr h)]
    rfl

theorem partition_perm (s : List Sample) (f : ℕ) (v : ℚ) :
    (leftPart s f v ++ rightPart s f v).Perm s := by
  rw [rightPart_eq_filter_not]
  exact List.filter_append_perm _ s

theorem partition_disjoint (s : List Sample) (f : ℕ) (v : ℚ) :
    ∀ p ∈ leftPart s f v, p ∉ rightPart s f v := by
  intro p hl hr
  rw [leftPart, List.mem_filter] at hl
  rw [rightPart, List.mem_filter] at hr
  exact absurd (of_decide_eq_true hl.2) (not_le.mpr (of_decide_eq_true hr.2))

theorem leftPart_cons_pos {p : Sample} {f : ℕ} {v : ℚ} (h : p.1.getD f 0 ≤ v)
    (s : List Sample) : leftPart (p :: s) f v = p :: leftPart s f v :=
  List.filter_cons_of_pos (decide_eq_true h)

theorem leftPart_cons_neg {p : Sample} {f : ℕ} {v : ℚ} (h : ¬ p.1.getD f 0 ≤ v)
    (s : List Sample) : leftPart (p :: s) f v = leftPart s f v :=
  List.filter_cons_of_neg (by rw [decide_eq_false h]; exact Bool.false_ne_true)

theorem rightPart_cons_pos {p : Sample} {f : ℕ} {v : ℚ} (h : ¬ p.1.getD f 0 ≤ v)
    (s : List Sample) : rightPart (p :: s) f v = p :: rightPart s f v :=
  List.filter_cons_of_pos (decide_eq_true (not_le.mp h))

theorem rightPart_cons_neg {p : Sample} {f : ℕ} {v : ℚ} (h : p.1.getD f 0 ≤ v)
    (s : List Sample) : rightPart (p :: s) f v = rightPart s f v :=
  List.filter_cons_of_neg (by rw [decide_eq_false (not_lt.mpr h)]; exact Bool.false_ne_true)

/-! ### Lemmas about prediction and sum of squared errors -/

theorem predict_split_le {x : List ℚ} {f : ℕ} {t : ℚ} (h : x.getD f 0 ≤ t)
    (l r : Node) : (Node.split f t l r).predict x = l.predict x := by
  show (if x.getD f 0 ≤ t then l.predict x else r.predict x) = l.predict x
  exact if_pos h

theorem predict_split_gt {x : List ℚ} {f : ℕ} {t : ℚ} (h : ¬ x.getD f 0 ≤ t)
    (l r : Node) : (Node.split f t l r).predict x = r.predict x := by
  show (if x.getD f 0 ≤ t then l.predict x else r.predict x) = r.predict x
  exact if_neg h

theorem sse_nil (t : Node) : sse t [] = 0 := rfl

theorem sse_cons (t : Node) (p : Sample) (s : List Sample) :
    sse t (p :: s) = (t.predict p.1 - p.2) ^ 2 + sse t s := by
  simp [sse]

theorem sse_split (f : ℕ) (v : ℚ) (a b : Node) (s : List Sample) :
    sse (Node.split f v a b) s = sse a (leftPart s f v) + sse b (rightPart s f v) := by
  induction s with
  | nil => simp [sse, leftPart, rightPart]
  | cons p t ih =>
    by_cases h : p.1.getD f 0 ≤ v
    · rw [sse_cons, leftPart_cons_pos h, rightPart_cons_neg h, sse_cons,
        predict_split_le h, ih]
      ring
    · rw [sse_cons, leftPart_cons_neg h, rightPart_cons_pos h, sse_cons,
        predict_split_gt h, ih]
      ring

theorem sse_leaf (c : ℚ) (s : List Sample) :
    sse (Node.leaf c) s = ((targets s).map (fun yv => (c - yv) ^ 2)).sum := by
  simp only [sse, targets, List.map_map]
  rfl

theorem length_mul_mean (l : List ℚ) (hne : l ≠ []) :
    (l.length : ℚ) * mean l = l.sum := by
  rw [mean, mul_comm, div_mul_cancel₀]
  exact Nat.cast_ne_zero.mpr (fun h => hne (List.length_eq_zero.mp h))

theorem sum_sq_sub_mean (l : List ℚ) :
    (l.map (fun yv => (mean l - yv) ^ 2)).sum = l.length * variance l := by
  have hmap : l.map (fun yv => (mean l - yv) ^ 2) = l.map (fun yv => (yv - mean l) ^ 2) :=
    List.map_congr_left (fun a _ => by ring)
  rcases eq_or_ne l [] with rfl | hne
  · simp [variance, mean]
  · rw [hmap]
    have h1 : (l.length : ℚ) * variance l = (l.map (fun v => (v - mean l) ^ 2)).sum := by
      rw [variance]
      have hlm : l.length = (l.map (fun v => (v - mean l) ^ 2)).length :=
        (List.length_map _ _).symm
      rw [hlm]
      exact length_mul_mean _ (fun h => hne (by simpa using h))
    rw [h1]

theorem sse_leaf_mean (s : List Sample) :
    sse (Node.leaf (mean (targets s))) s = s.length * variance (targets s) := by
  rw [sse_leaf, sum_sq_sub_mean, targets, List.length_map]

/-! ### Lemmas about the best-split scan -/

theorem foldl_betterSplit_lt (s : List Sample) (cs : List (ℕ × ℚ)) :
    ∀ acc : Option (ℕ × ℚ),
      (∀ b, acc = some b → splitCost s b.1 b.2 < variance (targets s)) →
      ∀ c, cs.foldl (betterSplit s) acc = some c →
        splitCost s c.1 c.2 < variance (targets s) := by
  induction cs with
  | nil => intro acc hacc c hc; exact hacc c hc
  | cons a t ih =>
    intro acc hacc c hc
    rw [List.foldl_cons] at hc
    refine ih (betterSplit s acc a) ?_ c hc
    intro b hb
    match acc, hacc with
    | none, _ =>
      rw [betterSplit] at hb
      by_cases hlt : splitCost s a.1 a.2 < variance (targets s)
      · rw [if_pos hlt] at hb
        cases hb
        exact hlt
      · rw [if_neg hlt] at hb
        cases hb
    | some b0, hacc =>
      have hb0 : splitCost s b0.1 b0.2 < variance (targets s) := hacc b0 rfl
      rw [betterSplit] at hb
      by_cases hlt : splitCost s a.1 a.2 < splitCost s b0.1 b0.2
      · rw [if_pos hlt] at hb
        cases hb
        exact lt_trans hlt hb0
      · rw [if_neg hlt] at hb
        cases hb
        exact hb0

theorem bestSplit_cost_lt {s : List Sample} {c : ℕ × ℚ} (h : bestSplit s = some c) :
    splitCost s c.1 c.2 < variance (targets s) :=
  foldl_betterSplit_lt s (candidates s) none (fun _ h => by cases h) c h

theorem foldl_betterSplit_none (s : List Sample) (cs : List (ℕ × ℚ))
    (h : ∀ c ∈ cs, ¬ splitCost s c.1 c.2 < variance (targets s)) :
    cs.foldl (betterSplit s) none = none := by
  induction cs with
  | nil => rfl
  | cons a t ih =>
    rw [List.foldl_cons, betterSplit, if_neg (h a (List.mem_cons_self a t))]
    exact ih (fun c hc => h c (List.mem_cons_of_mem a hc))

/-! ### Membership in the candidate lists -/

theorem mem_insertSorted (v w : ℚ) (l : List ℚ) :
    w ∈ insertSorted v l ↔ w = v ∨ w ∈ l := by
  induction l with
  | nil => simp [insertSorted]
  | cons a t ih =>
    rw [insertSorted]
    by_cases h : v ≤ a
    · rw [if_pos h]
      simp [List.mem_cons]
    · rw [if_neg h]
      simp only [List.mem_cons, ih]
      tauto

theorem mem_sortVals (w : ℚ) (l : List ℚ) : w ∈ sortVals l ↔ w ∈ l := by
  induction l with
  | nil => simp [sortVals]
  | cons a t ih =>
    rw [sortVals, List.foldr_cons]
    rw [show List.foldr insertSorted [] t = sortVals t from rfl]
    rw [mem_insertSorted, ih, List.mem_cons]

theorem mem_distinctVals (w : ℚ) (l : List ℚ) : w ∈ distinctVals l ↔ w ∈ l := by
  induction l with
  | nil => simp [distinctVals]
  | cons a t ih =>
    rw [distinctVals]
    by_cases h : a ∈ distinctVals t
    · rw [if_pos h]
      rw [List.mem_cons, ih]
      constructor
      · exact Or.inr
      · rintro (rfl | hw)
        · exact ih.mp h
        · exact hw
    · rw [if_neg h]
      simp [List.mem_cons, ih]

theorem mem_candidateThresholds (s : List Sample) (f : ℕ) (v : ℚ) :
    v ∈ candidateThresholds s f ↔ v ∈ featureColumn s f := by
  rw [candidateThresholds, mem_sortVals, mem_distinctVals]

/-! ### Depth bound and prediction routing -/

theorem get_depth_build_le (d : ℕ) : ∀ s : List Sample, (build d s).get_depth ≤ d := by
  induction d with
  | zero => intro s; exact le_refl 0
  | succ d ih =>
    intro s
    rw [build]
    by_cases hbase : s.length ≤ 1 ∨ allSame (targets s)
    · rw [if_pos hbase]
      exact Nat.zero_le _
    · rw [if_neg hbase]
      cases hbs : bestSplit s with
      | none => exact Nat.zero_le _
      | some fv =>
        obtain ⟨f, v⟩ := fv
        show 1 + max (build d (leftPart s f v)).get_depth (build d (rightPart s f v)).get_depth ≤ d + 1
        have h1 := ih (leftPart s f v)
        have h2 := ih (rightPart s f v)
        omega

theorem predict_routed (d : ℕ) : ∀ (s : List Sample) (x : List ℚ),
    (build d s).predict x = mean (targets (routedSubset (build d s) s x)) := by
  induction d with
  | zero => intro s x; rfl
  | succ d ih =>
    intro s x
    rw [build]
    by_cases hbase : s.length ≤ 1 ∨ allSame (targets s)
    · rw [if_pos hbase]
      rfl
    · rw [if_neg hbase]
      cases hbs : bestSplit s with
      | none => rfl
      | some fv =>
        obtain ⟨f, v⟩ := fv
        by_cases hx : x.getD f 0 ≤ v
        · rw [predict_split_le hx]
          rw [show routedSubset (Node.split f v (build d (leftPart s f v))
              (build d (rightPart s f v))) s x =
              routedSubset (build d (leftPart s f v)) (leftPart s f v) x from by
            rw [routedSubset, if_pos hx]]
          exact ih (leftPart s f v) x
        · rw [predict_split_gt hx]
          rw [show routedSubset (Node.split f v (build d (leftPart s f v))
              (build d (rightPart s f v))) s x =
              routedSubset (build d (rightPart s f v)) (rightPart s f v) x from by
            rw [routedSubset, if_neg hx]]
          exact ih (rightPart s f v) x

/-! ### Constant feature columns admit no valid split -/

theorem splitCost_const (s : List Sample) (hlen : 2 ≤ s.length) {f : ℕ} {v : ℚ}
    (hall : ∀ q ∈ s, q.1.getD f 0 = v) :
    splitCost s f v = variance (targets s) := by
  have hL : leftPart s f v = s :=
    List.filter_eq_self.mpr (fun a ha => decide_eq_true (le_of_eq (hall a ha)))
  have hR : rightPart s f v = [] :=
    List.filter_eq_nil_iff.mpr (fun a ha => by rw [hall a ha]; simp)
  have hn : (s.length : ℚ) ≠ 0 := Nat.cast_ne_zero.mpr (by omega)
  rw [splitCost, hL, hR]
  simp [mul_div_cancel_left₀ _ hn]

theorem bestSplit_const (s : List Sample) (hlen : 2 ≤ s.length)
    (hconst : ∀ f : ℕ, ∀ p ∈ s, ∀ q ∈ s, p.1.getD f 0 = q.1.getD f 0) :
    bestSplit s = none := by
  rw [bestSplit]
  apply foldl_betterSplit_none
  intro c hc
  rw [candidates, List.mem_flatMap] at hc
  obtain ⟨f, _, hcf⟩ := hc
  rw [List.mem_map] at hcf
  obtain ⟨v, hv, rfl⟩ := hcf
  rw [mem_candidateThresholds, featureColumn, List.mem_map] at hv
  obtain ⟨p, hp, hpv⟩ := hv
  have hall : ∀ q ∈ s, q.1.getD f 0 = v := fun q hq => (hconst f q hq p hp).trans hpv
  show ¬ splitCost s f v < variance (targets s)
  rw [splitCost_const s hlen hall]
  exact lt_irrefl _

/-! ### Unfolding equations for `build` at a positive depth budget -/

theorem build_base {d : ℕ} {s : List Sample}
    (hbase : s.length ≤ 1 ∨ allSame (targets s)) :
    build (d + 1) s = Node.leaf (mean (targets s)) := by
  rw [build, if_pos hbase]

theorem build_nosplit {d : ℕ} {s : List Sample}
    (hbase : ¬ (s.length ≤ 1 ∨ allSame (targets s))) (hbs : bestSplit s = none) :
    build (d + 1) s = Node.leaf (mean (targets s)) := by
  rw [build, if_neg hbase, hbs]

theorem build_split {d : ℕ} {s : List Sample} {f : ℕ} {v : ℚ}
    (hbase : ¬ (s.length ≤ 1 ∨ allSame (targets s)))
    (hbs : bestSplit s = some (f, v)) :
    build (d + 1) s =
      Node.split f v (build d (leftPart s f v)) (build d (rightPart s f v)) := by
  rw [build, if_neg hbase, hbs]

/-! ### Training-set SSE never increases with the depth budget -/

theorem sse_build_succ_le (d : ℕ) : ∀ s : List Sample,
    sse (build (d + 1) s) s ≤ sse (build d s) s := by
  induction d with
  | zero =>
    intro s
    by_cases hbase : s.length ≤ 1 ∨ allSame (targets s)
    · rw [build_base hbase]
      exact le_of_eq rfl
    · cases hbs : bestSplit s with
      | none =>
        rw [build_nosplit hbase hbs]
        exact le_of_eq rfl
      | some fv =>
        obtain ⟨f, v⟩ := fv
        rw [build_split hbase hbs]
        have hc := bestSplit_cost_lt hbs
        dsimp only at hc
        have hlen : 2 ≤ s.length := by
          rcases not_or.mp hbase with ⟨h1, _⟩
          omega
        have hnq : (0:ℚ) < (s.length : ℚ) := by
          exact_mod_cast (by omega : 0 < s.length)
        have hL : sse (build 0 (leftPart s f v)) (leftPart s f v) =
            ((leftPart s f v).length : ℚ) * variance (targets (leftPart s f v)) :=
          sse_leaf_mean _
        have hR : sse (build 0 (rightPart s f v)) (rightPart s f v) =
            ((rightPart s f v).length : ℚ) * variance (targets (rightPart s f v)) :=
          sse_leaf_mean _
        have hS : sse (build 0 s) s = (s.length : ℚ) * variance (targets s) :=
          sse_leaf_mean s
        rw [sse_split, hL, hR, hS]
        rw [splitCost, div_add_div_same] at hc
        have := (div_lt_iff₀ hnq).mp hc
        linarith
  | succ d ih =>
    intro s
    by_cases hbase : s.length ≤ 1 ∨ allSame (targets s)
    · rw [build_base hbase, build_base hbase]
    · cases hbs : bestSplit s with
      | none => rw [build_nosplit hbase hbs, build_nosplit hbase hbs]
      | some fv =>
        obtain ⟨f, v⟩ := fv
        rw [build_split hbase hbs, build_split hbase hbs]
        rw [sse_split, sse_split]
        exact add_le_add (ih (leftPart s f v)) (ih (rightPart s f v))

theorem sse_build_antitone (s : List Sample) : Antitone (fun d => sse (build d s) s) :=
  antitone_nat_of_succ_le (fun d => sse_build_succ_le d s)

theorem evaluate_eq_sse_div (t : Node) (X : List (List ℚ)) (y : List ℚ) :
    t.evaluate X y = sse t (X.zip y) / ((X.zip y).length : ℚ) := by
  rw [Node.evaluate, mean, sse, List.length_map]

/-! ### The model-selection loop -/

theorem make_best_tree_aux_nil (x_train : List (List ℚ)) (y_train : List ℚ)
    (x_test : List (List ℚ)) (y_test : List ℚ) (best : Option Node) (bm : Option ℚ) :
    make_best_tree_aux x_train y_train x_test y_test [] best bm = best := rfl

theorem make_best_tree_aux_cons (x_train : List (List ℚ)) (y_train : List ℚ)
    (x_test : List (List ℚ)) (y_test : List ℚ) (d : ℕ) (ds : List ℕ)
    (best : Option Node) (bm : Option ℚ) :
    make_best_tree_aux x_train y_train x_test y_test (d :: ds) best bm =
      if qLtBest (meanMSE x_train y_train x_test y_test d) bm then
        make_best_tree_aux x_train y_train x_test y_test ds
          (some (DecisionTree x_train y_train d))
          (some (meanMSE x_train y_train x_test y_test d))
      else best := rfl

theorem make_best_tree_spec (x_train : List (List ℚ)) (y_train : List ℚ)
    (x_test : List (List ℚ)) (y_test : List ℚ) :
    ∃ k : ℕ, k ≤ 5 ∧
      (∀ i : ℕ, i < k → meanMSE x_train y_train x_test y_test (i + 1) <
        meanMSE x_train y_train x_test y_test i) ∧
      (k = 5 ∨ ¬ meanMSE x_train y_train x_test y_test (k + 1) <
        meanMSE x_train y_train x_test y_test k) ∧
      make_best_tree x_train y_train x_test y_test =
        some (DecisionTree x_train y_train k) := by
  have hrw : make_best_tree x_train y_train x_test y_test =
      make_best_tree_aux x_train y_train x_test y_test [0, 1, 2, 3, 4, 5] none none := rfl
  by_cases h1 : meanMSE x_train y_train x_test y_test 1 < meanMSE x_train y_train x_test y_test 0
  · by_cases h2 : meanMSE x_train y_train x_test y_test 2 < meanMSE x_train y_train x_test y_test 1
    · by_cases h3 : meanMSE x_train y_train x_test y_test 3 <
          meanMSE x_train y_train x_test y_test 2
      · by_cases h4 : meanMSE x_train y_train x_test y_test 4 <
            meanMSE x_train y_train x_test y_test 3
        · by_cases h5 : meanMSE x_train y_train x_test y_test 5 <
              meanMSE x_train y_train x_test y_test 4
          · refine ⟨5, le_refl 5, ?_, Or.inl rfl, ?_⟩
            · intro i hi
              interval_cases i <;> assumption
            · rw [hrw]
              simp [make_best_tree_aux_cons, make_best_tree_aux_nil, qLtBest,
                h1, h2, h3, h4, h5]
          · refine ⟨4, by omega, ?_, Or.inr h5, ?_⟩
            · intro i hi
              interval_cases i <;> assumption
            · rw [hrw]
              simp [make_best_tree_aux_cons, make_best_tree_aux_nil, qLtBest,
                h1, h2, h3, h4, h5]
        · refine ⟨3, by omega, ?_, Or.inr h4, ?_⟩
          · intro i hi
            interval_cases i <;> assumption
          · rw [hrw]
            simp [make_best_tree_aux_cons, make_best_tree_aux_nil, qLtBest, h1, h2, h3, h4]
      · refine ⟨2, by omega, ?_, Or.inr h3, ?_⟩
        · intro i hi
          interval_cases i <;> assumption
        · rw [hrw]
          simp [make_best_tree_aux_cons, make_best_tree_aux_nil, qLtBest, h1, h2, h3]
    · refine ⟨1, by omega, ?_, Or.inr h2, ?_⟩
      · intro i hi
        interval_cases i <;> assumption
      · rw [hrw]
        simp [make_best_tree_aux_cons, make_best_tree_aux_nil, qLtBest, h1, h2]
  · refine ⟨0, by omega, ?_, Or.inr h1, ?_⟩
    · intro i hi
      omega
    · rw [hrw]
      simp [make_best_tree_aux_cons, make_best_tree_aux_nil, qLtBest, h1]

theorem chain_mono (μ : ℕ → ℚ) : ∀ k : ℕ, (∀ i : ℕ, i < k → μ (i + 1) < μ i) →
    ∀ d : ℕ, d ≤ k → μ k ≤ μ d := by
  intro k
  induction k with
  | zero =>
    intro _ d hd
    rw [Nat.le_zero.mp hd]
  | succ k ih =>
    intro h d hd
    rcases Nat.eq_or_lt_of_le hd with rfl | hdlt
    · exact le_refl _
    · have hdk : d ≤ k := by omega
      have h1 : μ (k + 1) < μ k := h k (Nat.lt_succ_self k)
      exact le_trans (le_of_lt h1) (ih (fun i hi => h i (Nat.lt_succ_of_lt hi)) d hdk)

/-! ### The claims -/

/-- Claim C1: the model-selection driver `make_best_tree` builds one tree per
`max_depth` value scanning 0..5 inclusive, computing at each depth the
arithmetic mean of the training-set MSE and the test-set MSE, and stops at the
first depth whose mean MSE fails to be strictly less than the best mean MSE
seen at any earlier depth (which, along the strictly improving prefix, is the
previous depth's mean), returning the tree of the last strictly-improving
depth — a greedy early stop, not an exhaustive search over 0..5. -/
theorem c1_make_best_tree_greedy_stop (x_train : List (List ℚ)) (y_train : List ℚ)
    (x_test : List (List ℚ)) (y_test : List ℚ) :
    ∃ k : ℕ, k ≤ 5 ∧
      (∀ i : ℕ, i < k → meanMSE x_train y_train x_test y_test (i + 1) <
        meanMSE x_train y_train x_test y_test i) ∧
      (k = 5 ∨ ¬ meanMSE x_train y_train x_test y_test (k + 1) <
        meanMSE x_train y_train x_test y_test k) ∧
      make_best_tree x_train y_train x_test y_test =
        some (DecisionTree x_train y_train k) :=
  make_best_tree_spec x_train y_train x_test y_test

/-- Claim C2: for every fixed training set and depth bounds `d1 ≤ d2`, the
training-set MSE of the tree built with `max_depth = d2` is at most that of
the tree built with `max_depth = d1` — the training fit is monotonically
non-increasing in the depth bound. -/
theorem c2_training_mse_antitone (X : List (List ℚ)) (y : List ℚ) (d1 d2 : ℕ)
    (h : d1 ≤ d2) :
    (DecisionTree X y d2).evaluate X y ≤ (DecisionTree X y d1).evaluate X y := by
  rw [DecisionTree, DecisionTree, evaluate_eq_sse_div, evaluate_eq_sse_div]
  have hs : sse (build d2 (X.zip y)) (X.zip y) ≤ sse (build d1 (X.zip y)) (X.zip y) :=
    sse_build_antitone (X.zip y) h
  rcases Nat.eq_zero_or_pos (X.zip y).length with h0 | hpos
  · rw [h0]
    simp
  · have hq : (0:ℚ) < ((X.zip y).length : ℚ) := by exact_mod_cast hpos
    exact (div_le_div_iff_of_pos_right hq).mpr hs

/-- Witness for Claim C2 at a concrete training set and depths 0 ≤ 1. -/
theorem c2_training_mse_antitone_witness :
    (0 : ℕ) ≤ 1 ∧
    (DecisionTree [[1], [2]] [0, 1] 1).evaluate [[1], [2]] [0, 1] ≤
      (DecisionTree [[1], [2]] [0, 1] 0).evaluate [[1], [2]] [0, 1] :=
  ⟨Nat.zero_le 1, c2_training_mse_antitone [[1], [2]] [0, 1] 0 1 (Nat.zero_le 1)⟩

/-- Claim C3: for a nonempty training set with matching lengths, the tree
built with `max_depth = 0` has a Leaf root holding the global target mean, and
`predict` returns that same constant for every input vector. -/
theorem c3_depth_zero_leaf_global_mean (X : List (List ℚ)) (y : List ℚ)
    (hlen : X.length = y.length) (hne : y ≠ []) :
    DecisionTree X y 0 = Node.leaf (mean y) ∧
    ∀ x : List ℚ, (DecisionTree X y 0).predict x = mean y := by
  have hty : targets (X.zip y) = y := by
    rw [targets]
    exact List.map_snd_zip X y (le_of_eq hlen.symm)
  have hroot : DecisionTree X y 0 = Node.leaf (mean y) := by
    show build 0 (X.zip y) = Node.leaf (mean y)
    rw [show build 0 (X.zip y) = Node.leaf (mean (targets (X.zip y))) from rfl, hty]
  exact ⟨hroot, fun x => by rw [hroot]; rfl⟩

/-- Witness for Claim C3 at a concrete two-sample training set. -/
theorem c3_depth_zero_leaf_global_mean_witness :
    (([[1], [2]] : List (List ℚ)).length = ([1, 3] : List ℚ).length ∧
      ([1, 3] : List ℚ) ≠ []) ∧
    (DecisionTree [[1], [2]] [1, 3] 0 = Node.leaf (mean [1, 3]) ∧
      ∀ x : List ℚ, (DecisionTree [[1], [2]] [1, 3] 0).predict x = mean [1, 3]) :=
  ⟨⟨rfl, by simp⟩, c3_depth_zero_leaf_global_mean [[1], [2]] [1, 3] rfl (by simp)⟩

/-- Claim C4: the realized depth of a constructed tree never exceeds the
`max_depth` passed to construction, and a tree whose root is a Leaf has
depth 0. -/
theorem c4_get_depth_le_max_depth :
    (∀ value : ℚ, (Node.leaf value).get_depth = 0) ∧
    ∀ (X : List (List ℚ)) (y : List ℚ) (max_depth : ℕ),
      (DecisionTree X y max_depth).get_depth ≤ max_depth :=
  ⟨fun _ => rfl, fun X y d => get_depth_build_le d (X.zip y)⟩

/-- Claim C5: the two partitions at any split are disjoint and their
concatenation is a permutation of the parent subset, and prediction on any
input returns exactly the mean of the training targets of the subset that
routes, along the same split path, to the reached leaf. -/
theorem c5_partition_and_leaf_mean_invariants (s : List Sample) (f : ℕ) (v : ℚ)
    (d : ℕ) (x : List ℚ) :
    (leftPart s f v ++ rightPart s f v).Perm s ∧
    (∀ p ∈ leftPart s f v, p ∉ rightPart s f v) ∧
    (build d s).predict x = mean (targets (routedSubset (build d s) s x)) :=
  ⟨partition_perm s f v, partition_disjoint s f v, predict_routed d s x⟩

/-- Claim C6: on the training set `X = [[1],[2],[3],[4]]`, `y = [1,1,5,5]`
with `max_depth = 1`, construction yields an internal root splitting on
feature 0 at threshold 2 with left leaf 1.0 and right leaf 5.0, prediction at
`[1.5]` returns 1.0 and at `[3.5]` returns 5.0, and the chosen split is the
globally minimum weighted-variance candidate in the feature-index-then-value
scan order. -/
theorem c6_concrete_scenario :
    DecisionTree [[1], [2], [3], [4]] [1, 1, 5, 5] 1 =
      Node.split 0 2 (Node.leaf 1) (Node.leaf 5) ∧
    (DecisionTree [[1], [2], [3], [4]] [1, 1, 5, 5] 1).predict [3 / 2] = 1 ∧
    (DecisionTree [[1], [2], [3], [4]] [1, 1, 5, 5] 1).predict [7 / 2] = 5 ∧
    bestSplit ([[1], [2], [3], [4]].zip [1, 1, 5, 5]) = some (0, 2) ∧
    ∀ c ∈ candidates ([[1], [2], [3], [4]].zip [1, 1, 5, 5]),
      splitCost ([[1], [2], [3], [4]].zip [1, 1, 5, 5]) 0 2 ≤
        splitCost ([[1], [2], [3], [4]].zip [1, 1, 5, 5]) c.1 c.2 := by
  have htree : DecisionTree [[1], [2], [3], [4]] [1, 1, 5, 5] 1 =
      Node.split 0 2 (Node.leaf 1) (Node.leaf 5) := by
    norm_num [DecisionTree, build, bestSplit, candidates, candidateThresholds,
      distinctVals, sortVals, insertSorted, featureColumn, numFeatures,
      List.range_succ, betterSplit, splitCost, leftPart, rightPart, variance,
      mean, targets, allSame, List.filter]
  have hcand : candidates ([[1], [2], [3], [4]].zip [1, 1, 5, 5]) =
      [(0, 1), (0, 2), (0, 3), (0, 4)] := by
    norm_num [candidates, candidateThresholds, distinctVals, sortVals,
      insertSorted, featureColumn, numFeatures, List.range_succ]
  have hbs : bestSplit ([[1], [2], [3], [4]].zip [1, 1, 5, 5]) = some (0, 2) := by
    norm_num [bestSplit, candidates, candidateThresholds, distinctVals, sortVals,
      insertSorted, featureColumn, numFeatures, List.range_succ, betterSplit,
      splitCost, leftPart, rightPart, variance, mean, targets, List.filter]
  refine ⟨htree, ?_, ?_, hbs, ?_⟩
  · rw [htree]
    norm_num [Node.predict]
  · rw [htree]
    norm_num [Node.predict]
  · intro c hc
    rw [hcand] at hc
    fin_cases hc <;>
      norm_num [splitCost, leftPart, rightPart, variance, mean, targets, List.filter]

/-- Claim C7: `predict` at a Leaf returns the stored value, and at an internal
node compares the vector's value at the stored feature index with the
threshold, descending left on ≤ and right on >. -/
theorem c7_predict_descends :
    (∀ (value : ℚ) (x : List ℚ), (Node.leaf value).predict x = value) ∧
    ∀ (f : ℕ) (t : ℚ) (l r : Node) (x : List ℚ),
      (Node.split f t l r).predict x =
        if x.getD f 0 ≤ t then l.predict x else r.predict x :=
  ⟨fun _ _ => rfl, fun _ _ _ _ _ => rfl⟩

/-- Claim C8: `evaluate` on a matrix and a target vector of the same sample
count returns the mean of the squared differences between prediction and
target over all rows. -/
theorem c8_evaluate_is_mean_squared_error (t : Node) (X : List (List ℚ))
    (y : List ℚ) (hlen : X.length = y.length) :
    t.evaluate X y =
      ((X.zip y).map (fun p => (t.predict p.1 - p.2) ^ 2)).sum / (X.length : ℚ) := by
  rw [evaluate_eq_sse_div, sse, List.length_zip, hlen, min_self]

/-- Witness for Claim C8 at a concrete single-sample evaluation. -/
theorem c8_evaluate_is_mean_squared_error_witness :
    (([[1]] : List (List ℚ)).length = ([2] : List ℚ).length) ∧
    (Node.leaf 0).evaluate [[1]] [2] =
      ((([[1]] : List (List ℚ)).zip ([2] : List ℚ)).map
        (fun p => ((Node.leaf 0).predict p.1 - p.2) ^ 2)).sum /
        ((([[1]] : List (List ℚ)).length : ℚ)) :=
  ⟨rfl, c8_evaluate_is_mean_squared_error (Node.leaf 0) [[1]] [2] rfl⟩

/-- Claim C9: on a subset whose feature columns are all constant, construction
does not fail and produces a Leaf holding the subset's target mean; whenever
the subset has at least two samples, the candidate scan accepts no split at
all (so no size-0 partition is ever selected). -/
theorem c9_constant_features_leaf (d : ℕ) (s : List Sample)
    (hconst : ∀ f : ℕ, ∀ p ∈ s, ∀ q ∈ s, p.1.getD f 0 = q.1.getD f 0) :
    build d s = Node.leaf (mean (targets s)) ∧
    (2 ≤ s.length → bestSplit s = none) := by
  constructor
  · cases d with
    | zero => rfl
    | succ d =>
      by_cases hbase : s.length ≤ 1 ∨ allSame (targets s)
      · exact build_base hbase
      · have hlen : 2 ≤ s.length := by
          rcases not_or.mp hbase with ⟨h1, _⟩
          omega
        exact build_nosplit hbase (bestSplit_const s hlen hconst)
  · intro hlen
    exact bestSplit_const s hlen hconst

/-- Witness for Claim C9 at a concrete two-sample subset with a constant
feature column. -/
theorem c9_constant_features_leaf_witness :
    (∀ f : ℕ, ∀ p ∈ ([([1], 2), ([1], 7)] : List Sample),
      ∀ q ∈ ([([1], 2), ([1], 7)] : List Sample),
        p.1.getD f 0 = q.1.getD f 0) ∧
    (build 3 [([1], 2), ([1], 7)] = Node.leaf (mean (targets [([1], 2), ([1], 7)])) ∧
      (2 ≤ ([([1], 2), ([1], 7)] : List Sample).length →
        bestSplit [([1], 2), ([1], 7)] = none)) := by
  have hconst : ∀ f : ℕ, ∀ p ∈ ([([1], 2), ([1], 7)] : List Sample),
      ∀ q ∈ ([([1], 2), ([1], 7)] : List Sample), p.1.getD f 0 = q.1.getD f 0 := by
    intro f p hp q hq
    fin_cases hp <;> fin_cases hq <;> rfl
  exact ⟨hconst, c9_constant_features_leaf 3 _ hconst⟩

/-- Claim C10: `best_mean_mse` starts at infinity, so the depth-0 comparison
succeeds whenever its mean MSE is an ordinary value; over exact rational
arithmetic `make_best_tree` always returns an actual tree whose mean MSE is
the minimum over all depths the loop evaluated, while in the NaN-aware model
of the float comparison a NaN first mean MSE makes the comparison fail and the
loop return `None`. -/
theorem c10_inf_init_and_nan (x_train : List (List ℚ)) (y_train : List ℚ)
    (x_test : List (List ℚ)) (y_test : List ℚ) (ms : ℕ → MseVal)
    (hnan : ms 0 = MseVal.nan) :
    (∃ k : ℕ, k ≤ 5 ∧
      make_best_tree x_train y_train x_test y_test =
        some (DecisionTree x_train y_train k) ∧
      ∀ d : ℕ, d ≤ 5 → d ≤ k + 1 →
        meanMSE x_train y_train x_test y_test k ≤
          meanMSE x_train y_train x_test y_test d) ∧
    bestDepthF ms = none := by
  constructor
  · obtain ⟨k, hk5, hdec, hstop, heq⟩ := make_best_tree_spec x_train y_train x_test y_test
    refine ⟨k, hk5, heq, ?_⟩
    intro d hd5 hdk1
    rcases Nat.lt_or_ge d (k + 1) with hdk | hdk
    · exact chain_mono _ k hdec d (by omega)
    · have hdeq : d = k + 1 := by omega
      subst hdeq
      rcases hstop with h5 | hnlt
      · exact absurd hd5 (by omega)
      · exact le_of_not_lt hnlt
  · have h6 : List.range 6 = 0 :: [1, 2, 3, 4, 5] := rfl
    rw [bestDepthF, h6]
    simp [bestDepthAux, hnan, MseVal.ltBest]

/-- Witness for Claim C10 at a concrete training set and the constantly-NaN
mean-MSE sequence. -/
theorem c10_inf_init_and_nan_witness :
    ((fun _ : ℕ => MseVal.nan) 0 = MseVal.nan) ∧
    ((∃ k : ℕ, k ≤ 5 ∧
      make_best_tree [[1]] [1] [[1]] [1] = some (DecisionTree [[1]] [1] k) ∧
      ∀ d : ℕ, d ≤ 5 → d ≤ k + 1 →
        meanMSE [[1]] [1] [[1]] [1] k ≤ meanMSE [[1]] [1] [[1]] [1] d) ∧
    bestDepthF (fun _ => MseVal.nan) = none) :=
  ⟨rfl, c10_inf_init_and_nan [[1]] [1] [[1]] [1] (fun _ => MseVal.nan) rfl⟩

end DTR
